import Mathlib

/-!
# Chrono work log: sessions, ledger, store and menu loop

A shallow embedding of `WorkClock` (the variant with the `WorkLog` ledger).
Hours are exact rationals: a C++ `double` is read as the number it denotes, and
sums are taken in insertion order.  Strings are Lean strings; the text of
`sessions.txt` is a list of characters.
-/

namespace Chrono

/-! ## WorkSession -/

/-- One work session: `projectHours`, `projectName`, `projectDate`. -/
structure WorkSession where
  projectHours : ℚ
  projectName : String
  projectDate : String
  deriving DecidableEq, Repr

namespace WorkSession

/-- A default-constructed session: `double projectHours{}` is zero and both
strings are empty. -/
def fresh : WorkSession := ⟨0, "", ""⟩

/-- Setter of the hours: `if(h <= 24 && h > 0) projectHours = h;` -/
def setHours (s : WorkSession) (h : ℚ) : WorkSession :=
  if h ≤ 24 ∧ h > 0 then { s with projectHours := h } else s

/-- Setter of the project name: `if(!n.empty()) projectName = n;` -/
def setName (s : WorkSession) (n : String) : WorkSession :=
  if ¬ n.data = [] then { s with projectName := n } else s

/-- Setter of the date: `if(!d.empty()) projectDate = d;` -/
def setDate (s : WorkSession) (d : String) : WorkSession :=
  if ¬ d.data = [] then { s with projectDate := d } else s

def getHours (s : WorkSession) : ℚ := s.projectHours

def getName (s : WorkSession) : String := s.projectName

def getDate (s : WorkSession) : String := s.projectDate

end WorkSession

/-! ## WorkLog -/

/-- The `std::unordered_map<std::string, double>` of the ledger, as an
association list with at most one entry per key. -/
abbrev HoursMap := List (String × ℚ)

namespace HoursMap

/-- Lookup `m.find(k)`: the mapped value, `none` for `end()`. -/
def find : HoursMap → String → Option ℚ
  | [], _ => none
  | (k', v) :: m, k => if k' = k then some v else find m k

/-- Update `m[k] += h`: `operator[]` value-initialises a missing entry to `0.0`
before the addition. -/
def addTo : HoursMap → String → ℚ → HoursMap
  | [], k, h => [(k, 0 + h)]
  | (k', v) :: m, k, h => if k' = k then (k', v + h) :: m else (k', v) :: addTo m k h

end HoursMap

/-- The ledger: the session vector and the two hour maps. -/
structure WorkLog where
  sessions : List WorkSession
  hoursByDate : HoursMap
  hoursByProject : HoursMap
  deriving DecidableEq

namespace WorkLog

/-- Constructor `WorkLog()`: everything empty. -/
def empty : WorkLog := ⟨[], [], []⟩

/-- Method `WorkLog::addSession`: push the session and add its hours to the
entry of its project name and to the entry of its date. -/
def addSession (log : WorkLog) (s : WorkSession) : WorkLog :=
  { sessions := log.sessions ++ [s]
    hoursByProject := log.hoursByProject.addTo s.getName s.getHours
    hoursByDate := log.hoursByDate.addTo s.getDate s.getHours }

/-- Method `WorkLog::getTotalHoursPerDate`: the mapped value when the date is
found, `0.0` otherwise. -/
def getTotalHoursPerDate (log : WorkLog) (date : String) : ℚ :=
  match log.hoursByDate.find date with
  | some v => v
  | none => 0

/-- Method `WorkLog::getTotalHoursPerProject`: the mapped value when the name
is found, `0.0` otherwise. -/
def getTotalHoursPerProject (log : WorkLog) (name : String) : ℚ :=
  match log.hoursByProject.find name with
  | some v => v
  | none => 0

/-- Method `WorkLog::getTotalHours`: `total` starts at `0.0` and each session's hours
are added in vector order. -/
def getTotalHours (log : WorkLog) : ℚ :=
  log.sessions.foldl (fun total s => total + s.getHours) 0

/-- The ledger after `addSession` was called on each element of `l` in order,
starting from `log`. -/
def addAll (log : WorkLog) (l : List WorkSession) : WorkLog :=
  l.foldl addSession log

end WorkLog

/-! ## Stream extraction and insertion

The store reads with `operator>>` and writes with `operator<<` of the C++
standard library.  They are modelled on character lists: extraction returns
the value read and the unread input, or `none` when it sets the fail bit.
Numbers are exact: the reader returns the decimal number written in the text,
the writer prints six significant digits as the default `double` format does;
rounding to the nearest `double` and its overflow are not modelled. -/

/-- Whitespace as `std::isspace` sees it in the classic locale: space, `\t`, `\n`, `\v`, `\f`, `\r`. -/
def isSpace (c : Char) : Bool :=
  decide (c = ' ' ∨ c = '\t' ∨ c = '\n' ∨ c = '\x0b' ∨ c = '\x0c' ∨ c = '\r')

/-- Decimal digit test. -/
def isDigit (c : Char) : Bool := decide (48 ≤ c.toNat ∧ c.toNat ≤ 57)

/-- Value of a decimal digit character. -/
def digitVal (c : Char) : ℕ := c.toNat - 48

/-- The character of a decimal digit. -/
def digitChar (d : ℕ) : Char := Char.ofNat (48 + d)

/-- Value of a run of decimal digits, most significant first. -/
def digitsVal (l : List Char) : ℕ := l.foldl (fun a c => 10 * a + digitVal c) 0

/-- Leading whitespace is skipped by every formatted extraction. -/
def skipWs (inp : List Char) : List Char := inp.dropWhile isSpace

/-- Extraction `in >> str` for a `std::string`: skip whitespace, take the maximal run of
non-whitespace characters; the extraction fails when that run is empty (end of
input).  Returns the token and the unread input. -/
def readString (inp : List Char) : Option (String × List Char) :=
  let s := skipWs inp
  let tok := s.takeWhile (fun c => !isSpace c)
  if tok = [] then none else some (String.mk tok, s.dropWhile (fun c => !isSpace c))

/-- An optional sign in front of a number or an exponent. -/
def readSign : List Char → Bool × List Char
  | [] => (false, [])
  | c :: t => if c = '-' then (true, t) else if c = '+' then (false, t) else (false, c :: t)

/-- The optional fraction: a decimal point and the digits after it. -/
def readFrac : List Char → List Char × List Char
  | [] => ([], [])
  | c :: t => if c = '.' then (t.takeWhile isDigit, t.dropWhile isDigit) else ([], c :: t)

/-- The optional exponent after a mantissa of value `v`: `e` or `E`, an
optional sign and at least one digit; an `e` without digits makes the
conversion fail. -/
def readExp (v : ℚ) : List Char → Option (ℚ × List Char)
  | [] => some (v, [])
  | c :: t =>
    if c = 'e' ∨ c = 'E' then
      let sg := readSign t
      let ed := sg.2.takeWhile isDigit
      if ed = [] then none
      else some (v * (if sg.1 then (10 : ℚ) ^ (-(digitsVal ed : ℤ)) else (10 : ℚ) ^ (digitsVal ed : ℤ)),
        sg.2.dropWhile isDigit)
    else some (v, c :: t)

/-- Extraction `in >> x` for a `double`: skip whitespace, then a decimal floating literal
(optional sign, digits, optional point and digits, optional exponent), of which
the longest prefix is consumed; the extraction fails when no mantissa digit is
there.  The value is the exact decimal number read. -/
def readDouble (inp : List Char) : Option (ℚ × List Char) :=
  let sg := readSign (skipWs inp)
  let ip := sg.2.takeWhile isDigit
  let fr := readFrac (sg.2.dropWhile isDigit)
  if ip = [] ∧ fr.1 = [] then none
  else
    let mant : ℚ := (digitsVal ip : ℚ) + (digitsVal fr.1 : ℚ) / (10 : ℚ) ^ fr.1.length
    readExp (if sg.1 then -mant else mant) fr.2

/-- Digits of a natural number, most significant first, at least one digit. -/
def natDigitsAux : ℕ → ℕ → List Char
  | 0, n => [digitChar (n % 10)]
  | fuel + 1, n =>
    if n < 10 then [digitChar n] else natDigitsAux fuel (n / 10) ++ [digitChar (n % 10)]

/-- Decimal text of a natural number. -/
def natDigits (n : ℕ) : List Char := natDigitsAux n n

/-- The last `w` decimal digits of `n`, most significant first. -/
def padDigits : ℕ → ℕ → List Char
  | 0, _ => []
  | w + 1, n => padDigits w (n / 10) ++ [digitChar (n % 10)]

/-- Decimal text of `m / 10^p` in the general format: integer part, then the
`p` fraction digits without their trailing zeros, the point dropped when no
fraction digit remains. -/
def putScaled (m p : ℕ) : List Char :=
  let frac := (padDigits p (m % 10 ^ p)).rdropWhile (fun c => c == '0')
  natDigits (m / 10 ^ p) ++ (if frac = [] then [] else '.' :: frac)

/-- The decimal exponent `⌊log₁₀ (n / d)⌋` of a positive fraction. -/
def decExp (n d : ℕ) : ℤ :=
  if d ≤ n then (Nat.log 10 (n / d) : ℤ) else -(Nat.clog 10 ((d + n - 1) / n) : ℤ)

/-- The quotient `N / D` rounded to the nearest natural number, ties to even. -/
def roundDiv (N D : ℕ) : ℕ :=
  if 2 * (N % D) < D then N / D
  else if D < 2 * (N % D) then N / D + 1
  else if (N / D) % 2 = 0 then N / D else N / D + 1

/-- Six significant digits of the positive fraction `n / d`: the pair `(m, X)`
with `n / d ≈ m * 10^(X - 5)` and `10^5 ≤ m < 10^6`. -/
def sixDigits (n d : ℕ) : ℕ × ℤ :=
  let X := decExp n d
  let m := if X ≤ 5 then roundDiv (n * 10 ^ (5 - X).toNat) d else roundDiv n (d * 10 ^ (X - 5).toNat)
  if m = 10 ^ 6 then (10 ^ 5, X + 1) else (m, X)

/-- Text of a positive number in the default stream format (`%g`, precision 6):
fixed notation when the decimal exponent `X` satisfies `-4 ≤ X < 6`, scientific
notation with an exponent of at least two digits otherwise. -/
def putPos (n d : ℕ) : List Char :=
  let mX := sixDigits n d
  if mX.2 < -4 ∨ 6 ≤ mX.2 then
    putScaled mX.1 5 ++ 'e' :: (if mX.2 < 0 then '-' else '+') ::
      ((if mX.2.natAbs < 10 then ['0'] else []) ++ natDigits mX.2.natAbs)
  else putScaled mX.1 (5 - mX.2).toNat

/-- Insertion `out << x` for a `double` with the stream defaults: `0` for zero,
a minus sign in front of the text of the absolute value otherwise. -/
def putDouble (h : ℚ) : List Char :=
  if h = 0 then ['0']
  else (if h < 0 then ['-'] else []) ++ putPos h.num.natAbs h.den

/-- The value denoted by the text `putDouble h`: `h` rounded to six significant
decimal digits. -/
def textValue (h : ℚ) : ℚ :=
  if h = 0 then 0
  else
    let mX := sixDigits h.num.natAbs h.den
    (if h < 0 then -1 else 1) * ((mX.1 : ℚ) * (10 : ℚ) ^ (mX.2 - 5))

/-! ## Store -/

/-- The body of the load loop: a fresh session given the date, the project name
and the hours through the setters, in that order. -/
def mkSession (date project : String) (hours : ℚ) : WorkSession :=
  ((WorkSession.fresh.setDate date).setName project).setHours hours

/-- One evaluation of `inFile >> date >> project >> hours`: the three values
and the unread input, or `none` when one of the extractions fails. -/
def readRecord (inp : List Char) : Option ((String × String × ℚ) × List Char) :=
  match readString inp with
  | none => none
  | some (date, r1) =>
    match readString r1 with
    | none => none
    | some (project, r2) =>
      match readDouble r2 with
      | none => none
      | some (hours, r3) => some ((date, project, hours), r3)

/-- The `while(inFile >> date >> project >> hours)` loop of `loadFromFile`,
with `list` the vector built so far.  Every record consumes input, so `fuel`
equal to the input length is never exhausted before the input is. -/
def loadLoop : ℕ → List Char → List WorkSession → List WorkSession
  | 0, _, list => list
  | fuel + 1, inp, list =>
    match readRecord inp with
    | none => list
    | some ((date, project, hours), rest) =>
      loadLoop fuel rest (list ++ [mkSession date project hours])

/-- Function `loadFromFile` on the content of `sessions.txt` (`none`: the file cannot be
opened).  Returns the vector and what is written to the console. -/
def loadFromFile (file : Option (List Char)) : List WorkSession × List String :=
  match file with
  | none => ([], ["Couldn't load the sessions database.\n"])
  | some text => (loadLoop text.length text [], [])

/-- The `for` loop of `saveToFile`: one line `date name hours` per session. -/
def saveLoop : List WorkSession → List Char
  | [] => []
  | s :: l =>
    s.getDate.data ++ ' ' :: (s.getName.data ++ ' ' :: (putDouble s.getHours ++ '\n' :: saveLoop l))

/-- Function `saveToFile`: given the current file and whether it can be opened for
writing, the file afterwards and what is written to the console. -/
def saveToFile (file : Option (List Char)) (canOpen : Bool) (list : List WorkSession) :
    Option (List Char) × List String :=
  if canOpen then (some (saveLoop list), ["Sessions saved.\n"])
  else (file, ["There was an error while accessing the sessions database\n"])

/-! ## Sessions built by the program -/

/-- Sessions the program can hold: a default-constructed session changed only
through the three setters. -/
inductive Built : WorkSession → Prop
  | fresh : Built WorkSession.fresh
  | setHours (s : WorkSession) (h : ℚ) : Built s → Built (s.setHours h)
  | setName (s : WorkSession) (n : String) : Built s → Built (s.setName n)
  | setDate (s : WorkSession) (d : String) : Built s → Built (s.setDate d)

/-- Sum of the hours of the sessions of `l` whose project name is `k`. -/
def projectSum (l : List WorkSession) (k : String) : ℚ :=
  ((l.filter (fun s => decide (s.getName = k))).map WorkSession.getHours).sum

/-- Sum of the hours of the sessions of `l` whose date is `k`. -/
def dateSum (l : List WorkSession) (k : String) : ℚ :=
  ((l.filter (fun s => decide (s.getDate = k))).map WorkSession.getHours).sum

/-! ## Application loop -/

/-- One round of the interactive add: the date line, the project line and the
hours with which the inner prompt loop ends; that loop repeats while the input
is not a number or `hours <= 0 || hours > 24`. -/
structure Entry where
  date : String
  project : String
  hours : ℚ
  accepted : 0 < hours ∧ hours ≤ 24

/-- The free function `addSession(sessions)`: one session is pushed per round
of the `while(adding)` loop. -/
def addSession (sessions : List WorkSession) : List Entry → List WorkSession
  | [] => sessions
  | e :: more =>
    addSession
      (sessions ++ [((WorkSession.fresh.setDate e.date).setHours e.hours).setName e.project]) more

/-- Left-justified output in a field of width `w` (`std::left << std::setw(w)`). -/
def padRight (w : ℕ) (l : List Char) : List Char := l ++ List.replicate (w - l.length) ' '

/-- Function `showSessions`: the header and one row per session. -/
def showSessions (list : List WorkSession) : List String :=
  String.mk (padRight 12 "Date".data ++ padRight 20 "Projects".data ++ padRight 8 "Hours".data ++
      "\n--------------------------------------\n".data) ::
    list.map (fun s => String.mk (padRight 12 s.getDate.data ++ padRight 20 s.getName.data ++
      padRight 8 (putDouble s.getHours) ++ ['\n']))

/-- The state `main` keeps between two menus: the session vector, the ledger,
the content of `sessions.txt` (`none`: it cannot be opened) and everything
written to the console apart from the menu and the prompts. -/
structure App where
  sessions : List WorkSession
  log : WorkLog
  file : Option (List Char)
  console : List String

/-- A menu choice together with what the user types for it. -/
inductive Cmd
  | add (e : Entry) (more : List Entry)
  | showAll
  | reload
  | hoursByProject (name : String)
  | hoursByDate (date : String)
  | totalHours
  | save (canOpen : Bool)
  | wrongOption

namespace App

/-- The start of `main`: load the file and feed every loaded session to a new
ledger. -/
def start (file : Option (List Char)) : App :=
  { sessions := (loadFromFile file).1
    log := WorkLog.empty.addAll (loadFromFile file).1
    file := file
    console := (loadFromFile file).2 }

/-- One pass through the `switch` of the menu loop. -/
def step (a : App) : Cmd → App
  | Cmd.add e more =>
    let oldSize := a.sessions.length
    let sessions := addSession a.sessions (e :: more)
    { a with sessions := sessions, log := (sessions.drop oldSize).foldl WorkLog.addSession a.log }
  | Cmd.showAll => { a with console := a.console ++ showSessions a.sessions }
  | Cmd.reload =>
    let sessions := (loadFromFile a.file).1
    { a with
      sessions := sessions
      log := sessions.foldl WorkLog.addSession WorkLog.empty
      console := a.console ++ (loadFromFile a.file).2 }
  | Cmd.hoursByProject name =>
    let hours := a.log.getTotalHoursPerProject name
    { a with
      console := a.console ++
        [if hours > 0 then "Total hours for " ++ name ++ " is: " ++ String.mk (putDouble hours) ++ "\n"
         else "Project not found.\n"] }
  | Cmd.hoursByDate date =>
    let hours := a.log.getTotalHoursPerDate date
    { a with
      console := a.console ++
        [if hours > 0 then
           "Total hours for the date of " ++ date ++ " is: " ++ String.mk (putDouble hours) ++ "\n"
         else "No sessions found for that date.\n"] }
  | Cmd.totalHours =>
    let hours := a.log.getTotalHours
    { a with
      console := a.console ++
        [if hours ≥ 0 then "Total hours for all sessions is: " ++ String.mk (putDouble hours) ++ "\n"
         else "Error: negative number given for total sessions hours.\n"] }
  | Cmd.save canOpen =>
    { a with
      file := (saveToFile a.file canOpen a.sessions).1
      console := a.console ++ (saveToFile a.file canOpen a.sessions).2 }
  | Cmd.wrongOption => { a with console := a.console ++ ["Wrong option.\n"] }

/-- The state after the menu choices `cmds`, taken in order. -/
def run (a : App) (cmds : List Cmd) : App := cmds.foldl step a

end App

/-! ## Notions used to state the claims on the store -/

/-- The records `rs` are read one after the other from `inp`, leaving `rest`
unread. -/
inductive ReadsRecords : List Char → List (String × String × ℚ) → List Char → Prop
  | done (inp : List Char) : ReadsRecords inp [] inp
  | next (inp mid rest : List Char) (r : String × String × ℚ) (rs : List (String × String × ℚ)) :
      readRecord inp = some (r, mid) → ReadsRecords mid rs rest → ReadsRecords inp (r :: rs) rest

/-- The `(date, project, hours)` triple of a session. -/
def triple (s : WorkSession) : String × String × ℚ := (s.getDate, s.getName, s.getHours)

/-- A string without any whitespace character. -/
def noSpace (x : String) : Prop := ∀ c ∈ x.data, isSpace c = false

instance (x : String) : Decidable (noSpace x) := by
  unfold noSpace
  infer_instance

/-- A valid session: non-empty, whitespace-free date and project name, and
hours in `(0, 24]`. -/
def Valid (s : WorkSession) : Prop :=
  s.getDate ≠ "" ∧ noSpace s.getDate ∧ s.getName ≠ "" ∧ noSpace s.getName ∧
    0 < s.getHours ∧ s.getHours ≤ 24

/-! ## Lemmas on the ledger -/

theorem HoursMap.find_addTo (m : HoursMap) (k k' : String) (h : ℚ) :
    (HoursMap.addTo m k h).find k' =
      if k = k' then some ((m.find k).getD 0 + h) else m.find k' := by
  induction m with
  | nil =>
    by_cases hk : k = k' <;> simp [HoursMap.addTo, HoursMap.find, hk]
  | cons p m ih =>
    obtain ⟨a, v⟩ := p
    by_cases ha : a = k
    · subst ha
      by_cases hk : a = k' <;> simp [HoursMap.addTo, HoursMap.find, hk]
    · by_cases hk : k = k'
      · subst hk
        simp [HoursMap.addTo, HoursMap.find, ha, ih]
      · have hk' : ¬ k' = k := fun e => hk e.symm
        by_cases hak : a = k'
        · subst hak
          simp [HoursMap.addTo, HoursMap.find, hk, hk']
        · simp [HoursMap.addTo, HoursMap.find, ha, hk, hak, ih]

theorem WorkLog.perProject_eq (log : WorkLog) (k : String) :
    log.getTotalHoursPerProject k = (log.hoursByProject.find k).getD 0 := by
  unfold WorkLog.getTotalHoursPerProject
  cases log.hoursByProject.find k <;> rfl

theorem WorkLog.perDate_eq (log : WorkLog) (k : String) :
    log.getTotalHoursPerDate k = (log.hoursByDate.find k).getD 0 := by
  unfold WorkLog.getTotalHoursPerDate
  cases log.hoursByDate.find k <;> rfl

theorem WorkLog.perProject_addSession (log : WorkLog) (s : WorkSession) (k : String) :
    (log.addSession s).getTotalHoursPerProject k =
      log.getTotalHoursPerProject k + (if s.getName = k then s.getHours else 0) := by
  simp only [WorkLog.perProject_eq, WorkLog.addSession, HoursMap.find_addTo]
  by_cases hk : s.getName = k
  · subst hk; simp
  · simp [hk]

theorem WorkLog.perDate_addSession (log : WorkLog) (s : WorkSession) (k : String) :
    (log.addSession s).getTotalHoursPerDate k =
      log.getTotalHoursPerDate k + (if s.getDate = k then s.getHours else 0) := by
  simp only [WorkLog.perDate_eq, WorkLog.addSession, HoursMap.find_addTo]
  by_cases hk : s.getDate = k
  · subst hk; simp
  · simp [hk]

theorem WorkLog.perProject_addAll (l : List WorkSession) (log : WorkLog) (k : String) :
    (log.addAll l).getTotalHoursPerProject k = log.getTotalHoursPerProject k + projectSum l k := by
  induction l generalizing log with
  | nil => simp [WorkLog.addAll, projectSum]
  | cons s l ih =>
    have h := ih (log.addSession s)
    simp only [WorkLog.addAll, List.foldl_cons] at h ⊢
    rw [h, WorkLog.perProject_addSession]
    by_cases hk : s.getName = k <;> simp [projectSum, List.filter_cons, hk, add_assoc]

theorem WorkLog.perDate_addAll (l : List WorkSession) (log : WorkLog) (k : String) :
    (log.addAll l).getTotalHoursPerDate k = log.getTotalHoursPerDate k + dateSum l k := by
  induction l generalizing log with
  | nil => simp [WorkLog.addAll, dateSum]
  | cons s l ih =>
    have h := ih (log.addSession s)
    simp only [WorkLog.addAll, List.foldl_cons] at h ⊢
    rw [h, WorkLog.perDate_addSession]
    by_cases hk : s.getDate = k <;> simp [dateSum, List.filter_cons, hk, add_assoc]

theorem WorkLog.sessions_addAll (l : List WorkSession) (log : WorkLog) :
    (log.addAll l).sessions = log.sessions ++ l := by
  induction l generalizing log with
  | nil => simp [WorkLog.addAll]
  | cons s l ih =>
    have h := ih (log.addSession s)
    simp only [WorkLog.addAll, List.foldl_cons] at h ⊢
    rw [h]
    simp [WorkLog.addSession]

theorem foldl_hours (l : List WorkSession) (a : ℚ) :
    l.foldl (fun total s => total + s.getHours) a = a + (l.map WorkSession.getHours).sum := by
  induction l generalizing a with
  | nil => simp
  | cons s l ih => simp [ih, add_assoc]

theorem WorkLog.getTotalHours_eq (log : WorkLog) :
    log.getTotalHours = (log.sessions.map WorkSession.getHours).sum := by
  simp [WorkLog.getTotalHours, foldl_hours]

theorem filter_sum_zero (l : List WorkSession) (p : WorkSession → Bool)
    (h : ∀ s ∈ l, p s = false) : ((l.filter p).map WorkSession.getHours).sum = 0 := by
  have : l.filter p = [] := by
    rw [List.filter_eq_nil_iff]
    intro s hs
    simp [h s hs]
  simp [this]

theorem Built.hours_range {s : WorkSession} (hs : Built s) :
    s.getHours = 0 ∨ (0 < s.getHours ∧ s.getHours ≤ 24) := by
  induction hs with
  | fresh => left; rfl
  | setHours s h _ ih =>
    unfold WorkSession.setHours
    split
    · rename_i hh
      right
      exact ⟨hh.2, hh.1⟩
    · exact ih
  | setName s n _ ih =>
    unfold WorkSession.setName
    split <;> exact ih
  | setDate s d _ ih =>
    unfold WorkSession.setDate
    split <;> exact ih

theorem Built.hours_nonneg {s : WorkSession} (hs : Built s) : 0 ≤ s.getHours := by
  rcases hs.hours_range with h | h
  · exact h.ge
  · exact h.1.le

theorem data_eq_nil_iff (x : String) : x.data = [] ↔ x = "" := by
  constructor
  · intro h
    cases x
    simp_all
  · intro h
    subst h
    rfl

/-! ## Lemmas on extraction and on the load loop -/

theorem length_dropWhile_le (q : Char → Bool) (l : List Char) :
    (l.dropWhile q).length ≤ l.length :=
  (List.dropWhile_sublist q).length_le

theorem length_takeWhile_add (q : Char → Bool) (l : List Char) :
    (l.takeWhile q).length + (l.dropWhile q).length = l.length := by
  rw [← List.length_append, List.takeWhile_append_dropWhile]

theorem readString_some {inp rest : List Char} {tok : String}
    (h : readString inp = some (tok, rest)) :
    tok.data ≠ [] ∧ noSpace tok ∧ rest.length < inp.length := by
  unfold readString at h
  simp only at h
  split at h
  · exact absurd h (by simp)
  · rename_i hne
    simp only [Option.some.injEq, Prod.mk.injEq] at h
    obtain ⟨h1, h2⟩ := h
    subst h1 h2
    refine ⟨hne, ?_, ?_⟩
    · intro c hc
      have := List.mem_takeWhile_imp hc
      simpa using this
    · have h1 := length_takeWhile_add (fun c => !isSpace c) (skipWs inp)
      have h2 : (skipWs inp).length ≤ inp.length := length_dropWhile_le _ _
      have h3 : 0 < ((skipWs inp).takeWhile (fun c => !isSpace c)).length :=
        List.length_pos.mpr hne
      omega

theorem readSign_cons (c : Char) (t : List Char) :
    readSign (c :: t) =
      if c = '-' then (true, t) else if c = '+' then (false, t) else (false, c :: t) := rfl

theorem readFrac_cons (c : Char) (t : List Char) :
    readFrac (c :: t) =
      if c = '.' then (t.takeWhile isDigit, t.dropWhile isDigit) else ([], c :: t) := rfl

theorem readExp_cons (v : ℚ) (c : Char) (t : List Char) :
    readExp v (c :: t) =
      if c = 'e' ∨ c = 'E' then
        if (readSign t).2.takeWhile isDigit = [] then none
        else some (v * (if (readSign t).1 then (10 : ℚ) ^ (-(digitsVal ((readSign t).2.takeWhile isDigit) : ℤ))
            else (10 : ℚ) ^ (digitsVal ((readSign t).2.takeWhile isDigit) : ℤ)),
          (readSign t).2.dropWhile isDigit)
      else some (v, c :: t) := rfl

theorem readSign_length (l : List Char) : (readSign l).2.length ≤ l.length := by
  cases l with
  | nil => simp [readSign]
  | cons c t =>
    rw [readSign_cons]
    split
    · simp
    · split <;> simp

theorem readFrac_length (l : List Char) : (readFrac l).2.length ≤ l.length := by
  cases l with
  | nil => simp [readFrac]
  | cons c t =>
    rw [readFrac_cons]
    split
    · have := length_dropWhile_le isDigit t
      simp only [List.length_cons]
      omega
    · simp

theorem readExp_some {v w : ℚ} {l rest : List Char} (h : readExp v l = some (w, rest)) :
    rest.length ≤ l.length := by
  cases l with
  | nil =>
    simp only [readExp, Option.some.injEq, Prod.mk.injEq] at h
    rw [← h.2]
  | cons c t =>
    rw [readExp_cons] at h
    split at h
    · split at h
      · exact absurd h (by simp)
      · simp only [Option.some.injEq, Prod.mk.injEq] at h
        rw [← h.2]
        have h1 := length_dropWhile_le isDigit (readSign t).2
        have h2 := readSign_length t
        simp only [List.length_cons]
        omega
    · simp only [Option.some.injEq, Prod.mk.injEq] at h
      rw [← h.2]

theorem readDouble_some {inp rest : List Char} {v : ℚ} (h : readDouble inp = some (v, rest)) :
    rest.length ≤ inp.length := by
  unfold readDouble at h
  simp only at h
  split at h
  · exact absurd h (by simp)
  · have h1 := readExp_some h
    have h2 := readFrac_length ((readSign (skipWs inp)).2.dropWhile isDigit)
    have h3 := length_dropWhile_le isDigit (readSign (skipWs inp)).2
    have h4 := readSign_length (skipWs inp)
    have h5 : (skipWs inp).length ≤ inp.length := length_dropWhile_le _ _
    omega

theorem readRecord_some {inp rest : List Char} {date project : String} {hours : ℚ}
    (h : readRecord inp = some ((date, project, hours), rest)) :
    date.data ≠ [] ∧ noSpace date ∧ project.data ≠ [] ∧ noSpace project ∧
      rest.length < inp.length := by
  unfold readRecord at h
  split at h
  · exact absurd h (by simp)
  · rename_i d r1 hd
    split at h
    · exact absurd h (by simp)
    · rename_i q r2 hq
      split at h
      · exact absurd h (by simp)
      · rename_i x r3 hx
        simp only [Option.some.injEq, Prod.mk.injEq] at h
        obtain ⟨⟨e1, e2, e3⟩, e4⟩ := h
        subst e1 e2 e3 e4
        have a1 := readString_some hd
        have a2 := readString_some hq
        have a3 := readDouble_some hx
        exact ⟨a1.1, a1.2.1, a2.1, a2.2.1, by omega⟩

theorem readRecord_nil : readRecord [] = none := by
  simp [readRecord, readString, skipWs]

theorem loadLoop_acc (fuel : ℕ) (inp : List Char) (acc : List WorkSession) :
    loadLoop fuel inp acc = acc ++ loadLoop fuel inp [] := by
  induction fuel generalizing inp acc with
  | zero => simp [loadLoop]
  | succ fuel ih =>
    unfold loadLoop
    split
    · simp
    · rename_i d q x rest _
      rw [ih rest (acc ++ _), ih rest ([] ++ _)]
      simp

theorem loadLoop_fuel (f1 f2 : ℕ) (inp : List Char) (acc : List WorkSession)
    (h1 : inp.length ≤ f1) (h2 : inp.length ≤ f2) :
    loadLoop f1 inp acc = loadLoop f2 inp acc := by
  induction f1 generalizing f2 inp acc with
  | zero =>
    have : inp = [] := List.length_eq_zero.mp (Nat.le_zero.mp h1)
    subst this
    cases f2 <;> simp [loadLoop, readRecord_nil]
  | succ f1 ih =>
    cases f2 with
    | zero =>
      have : inp = [] := List.length_eq_zero.mp (Nat.le_zero.mp h2)
      subst this
      simp [loadLoop, readRecord_nil]
    | succ f2 =>
      unfold loadLoop
      split
      · rfl
      · rename_i d q x rest hr
        have := (readRecord_some hr).2.2.2.2
        exact ih f2 rest _ (by omega) (by omega)

/-- The vector `loadFromFile` returns for an opened file with content `inp`:
nothing when the first record cannot be read. -/
theorem load_of_none {inp : List Char} (h : readRecord inp = none) :
    (loadFromFile (some inp)).1 = [] := by
  simp only [loadFromFile]
  cases hl : inp.length with
  | zero => rfl
  | succ n => simp [loadLoop, h]

/-- The vector `loadFromFile` returns for an opened file with content `inp`:
the session of the first record, then what is loaded from the unread input. -/
theorem load_of_some {inp rest : List Char} {date project : String} {hours : ℚ}
    (h : readRecord inp = some ((date, project, hours), rest)) :
    (loadFromFile (some inp)).1 = mkSession date project hours :: (loadFromFile (some rest)).1 := by
  have hlen := (readRecord_some h).2.2.2.2
  simp only [loadFromFile]
  cases hl : inp.length with
  | zero => omega
  | succ n =>
    simp only [loadLoop, h]
    rw [loadLoop_acc, loadLoop_fuel n rest.length rest [] (by omega) le_rfl]
    simp

theorem mkSession_fields (date project : String) (hours : ℚ) (hd : date.data ≠ [])
    (hp : project.data ≠ []) :
    (mkSession date project hours).getDate = date ∧
    (mkSession date project hours).getName = project ∧
    (0 < hours ∧ hours ≤ 24 → (mkSession date project hours).getHours = hours) ∧
    (¬ (0 < hours ∧ hours ≤ 24) → (mkSession date project hours).getHours = 0) := by
  refine ⟨?_, ?_, ?_, ?_⟩
  · unfold mkSession WorkSession.setHours
    split <;> simp [WorkSession.setName, WorkSession.setDate, WorkSession.getDate, hd, hp]
  · unfold mkSession WorkSession.setHours
    split <;> simp [WorkSession.setName, WorkSession.setDate, WorkSession.getName, hd, hp]
  · intro h
    simp [mkSession, WorkSession.setHours, WorkSession.getHours, h.1, h.2]
  · intro h
    have : ¬ (hours ≤ 24 ∧ hours > 0) := fun h' => h ⟨h'.2, h'.1⟩
    simp [mkSession, WorkSession.setHours, WorkSession.getHours, this, WorkSession.setName,
      WorkSession.setDate, hd, hp, WorkSession.fresh]

theorem load_names_noSpace (n : ℕ) (inp : List Char) (hn : inp.length ≤ n) :
    ∀ s ∈ (loadFromFile (some inp)).1, noSpace s.getName := by
  induction n generalizing inp with
  | zero =>
    have : inp = [] := List.length_eq_zero.mp (Nat.le_zero.mp hn)
    subst this
    simp [loadFromFile, loadLoop]
  | succ n ih =>
    cases hr : readRecord inp with
    | none => simp [load_of_none hr]
    | some x =>
      obtain ⟨⟨d, q, x⟩, rest⟩ := x
      have hs := readRecord_some hr
      rw [load_of_some hr]
      intro s hsm
      rcases List.mem_cons.mp hsm with e | e
      · rw [e, (mkSession_fields d q x hs.1 hs.2.2.1).2.1]
        exact hs.2.2.2.1
      · exact ih rest (by omega) s e

theorem reads_total (n : ℕ) (inp : List Char) (hn : inp.length ≤ n) :
    ∃ rs mid, ReadsRecords inp rs mid ∧ readRecord mid = none := by
  induction n generalizing inp with
  | zero =>
    have : inp = [] := List.length_eq_zero.mp (Nat.le_zero.mp hn)
    subst this
    exact ⟨[], [], ReadsRecords.done [], readRecord_nil⟩
  | succ n ih =>
    cases hr : readRecord inp with
    | none => exact ⟨[], inp, ReadsRecords.done inp, hr⟩
    | some x =>
      obtain ⟨⟨d, q, x⟩, rest⟩ := x
      have hs := readRecord_some hr
      obtain ⟨rs, mid, h1, h2⟩ := ih rest (by omega)
      exact ⟨(d, q, x) :: rs, mid, ReadsRecords.next inp rest mid (d, q, x) rs hr h1, h2⟩

theorem load_of_reads {inp mid : List Char} {rs : List (String × String × ℚ)}
    (h : ReadsRecords inp rs mid) (hbad : readRecord mid = none) :
    (loadFromFile (some inp)).1 = rs.map (fun r => mkSession r.1 r.2.1 r.2.2) := by
  induction h with
  | done inp => simpa using load_of_none hbad
  | next inp mid rest r rs hr _ ih =>
    obtain ⟨d, q, x⟩ := r
    rw [load_of_some hr, ih hbad]
    simp

theorem reads_fields {inp mid : List Char} {rs : List (String × String × ℚ)}
    (h : ReadsRecords inp rs mid) : ∀ r ∈ rs, r.1.data ≠ [] ∧ r.2.1.data ≠ [] := by
  induction h with
  | done inp => simp
  | next inp mid rest r rs hr _ ih =>
    obtain ⟨d, q, x⟩ := r
    have hs := readRecord_some hr
    intro r' hr'
    rcases List.mem_cons.mp hr' with e | e
    · subst e
      exact ⟨hs.1, hs.2.2.1⟩
    · exact ih r' e

theorem addSession_eq (sessions : List WorkSession) (es : List Entry) :
    addSession sessions es = sessions ++
      es.map (fun e => ((WorkSession.fresh.setDate e.date).setHours e.hours).setName e.project) := by
  induction es generalizing sessions with
  | nil => simp [addSession]
  | cons e more ih => simp [addSession, ih]

theorem App.step_inv (a : App) (c : Cmd) (h : a.log = WorkLog.empty.addAll a.sessions) :
    (a.step c).log = WorkLog.empty.addAll (a.step c).sessions := by
  cases c with
  | add e more =>
    simp only [App.step, addSession_eq, List.drop_left, h, WorkLog.addAll, List.foldl_append]
  | showAll => exact h
  | reload => rfl
  | hoursByProject name => exact h
  | hoursByDate date => exact h
  | totalHours => exact h
  | save canOpen => exact h
  | wrongOption => exact h

theorem App.run_inv (cmds : List Cmd) (a : App) (h : a.log = WorkLog.empty.addAll a.sessions) :
    (a.run cmds).log = WorkLog.empty.addAll (a.run cmds).sessions := by
  induction cmds generalizing a with
  | nil => exact h
  | cons c cmds ih => exact ih (a.step c) (App.step_inv a c h)

/-! ## Lemmas on number text -/

theorem digitChar_props (d : ℕ) (hd : d < 10) :
    isDigit (digitChar d) = true ∧ digitVal (digitChar d) = d := by
  interval_cases d <;> exact ⟨by decide, by decide⟩

theorem isDigit_props {c : Char} (h : isDigit c = true) :
    isSpace c = false ∧ c ≠ '-' ∧ c ≠ '+' ∧ c ≠ '.' := by
  refine ⟨?_, ?_, ?_, ?_⟩
  · by_contra hs
    simp only [isSpace, Bool.not_eq_false, decide_eq_true_eq] at hs
    rcases hs with e | e | e | e | e | e <;> (subst e; exact absurd h (by decide))
  all_goals (intro e; subst e; exact absurd h (by decide))

theorem isSpace_props {c : Char} (h : isSpace c = true) :
    isDigit c = false ∧ c ≠ '.' ∧ c ≠ 'e' ∧ c ≠ 'E' := by
  simp only [isSpace, decide_eq_true_eq] at h
  rcases h with e | e | e | e | e | e <;> (subst e; decide)

theorem digitsVal_concat (l : List Char) (c : Char) :
    digitsVal (l ++ [c]) = 10 * digitsVal l + digitVal c := by
  simp [digitsVal, List.foldl_append]

theorem natDigitsAux_digits (fuel n : ℕ) : ∀ c ∈ natDigitsAux fuel n, isDigit c = true := by
  induction fuel generalizing n with
  | zero =>
    intro c hc
    simp only [natDigitsAux, List.mem_singleton] at hc
    rw [hc]
    exact (digitChar_props _ (Nat.mod_lt _ (by norm_num))).1
  | succ fuel ih =>
    intro c hc
    unfold natDigitsAux at hc
    split at hc
    · rename_i hlt
      simp only [List.mem_singleton] at hc
      rw [hc]
      exact (digitChar_props _ hlt).1
    · rcases List.mem_append.mp hc with h | h
      · exact ih _ c h
      · simp only [List.mem_singleton] at h
        rw [h]
        exact (digitChar_props _ (Nat.mod_lt _ (by norm_num))).1

theorem natDigitsAux_val (fuel n : ℕ) (h : n ≤ fuel) : digitsVal (natDigitsAux fuel n) = n := by
  induction fuel generalizing n with
  | zero =>
    have : n = 0 := Nat.le_zero.mp h
    subst this
    simp [natDigitsAux, digitsVal, (digitChar_props 0 (by norm_num)).2]
  | succ fuel ih =>
    unfold natDigitsAux
    split
    · rename_i hlt
      simp [digitsVal, (digitChar_props n hlt).2]
    · rw [digitsVal_concat, ih (n / 10) (by omega),
        (digitChar_props _ (Nat.mod_lt n (by norm_num))).2]
      omega

theorem natDigitsAux_ne_nil (fuel n : ℕ) : natDigitsAux fuel n ≠ [] := by
  cases fuel with
  | zero => simp [natDigitsAux]
  | succ fuel =>
    unfold natDigitsAux
    split <;> simp

theorem padDigits_digits (w n : ℕ) : ∀ c ∈ padDigits w n, isDigit c = true := by
  induction w generalizing n with
  | zero => simp [padDigits]
  | succ w ih =>
    intro c hc
    rcases List.mem_append.mp hc with h | h
    · exact ih _ c h
    · simp only [List.mem_singleton] at h
      rw [h]
      exact (digitChar_props _ (Nat.mod_lt _ (by norm_num))).1

theorem padDigits_length (w n : ℕ) : (padDigits w n).length = w := by
  induction w generalizing n with
  | zero => rfl
  | succ w ih => simp [padDigits, ih]

theorem padDigits_val (w n : ℕ) : digitsVal (padDigits w n) = n % 10 ^ w := by
  induction w generalizing n with
  | zero => simp [padDigits, digitsVal, Nat.mod_one]
  | succ w ih =>
    simp only [padDigits]
    rw [digitsVal_concat, ih, (digitChar_props _ (Nat.mod_lt n (by norm_num))).2, pow_succ,
      mul_comm (10 ^ w) 10, Nat.mod_mul]
    omega

/-- Value of a run of fraction digits: the digits read as a number, scaled by
their count. -/
theorem strip_val (l : List Char) :
    (digitsVal (l.rdropWhile (fun c => c == '0')) : ℚ) /
        (10 : ℚ) ^ (l.rdropWhile (fun c => c == '0')).length =
      (digitsVal l : ℚ) / (10 : ℚ) ^ l.length := by
  induction l using List.reverseRecOn with
  | nil => simp
  | append_singleton l c ih =>
    by_cases hc : c = '0'
    · subst hc
      rw [List.rdropWhile_concat_pos _ _ _ (by simp), ih, digitsVal_concat]
      have : digitVal '0' = 0 := by decide
      rw [this, List.length_append, List.length_singleton, pow_succ]
      push_cast
      field_simp
      ring
    · rw [List.rdropWhile_concat_neg _ _ _ (by simpa using hc)]

theorem strip_digits (l : List Char) (h : ∀ c ∈ l, isDigit c = true) :
    ∀ c ∈ l.rdropWhile (fun c => c == '0'), isDigit c = true := by
  intro c hc
  exact h c (List.IsPrefix.subset ( List.rdropWhile_prefix _ l) hc)

theorem takeWhile_digits (l rest : List Char) (c : Char) (hl : ∀ x ∈ l, isDigit x = true)
    (hc : isDigit c = false) : (l ++ c :: rest).takeWhile isDigit = l := by
  rw [List.takeWhile_append_of_pos hl]
  simp [List.takeWhile_cons, hc]

theorem dropWhile_digits (l rest : List Char) (c : Char) (hl : ∀ x ∈ l, isDigit x = true)
    (hc : isDigit c = false) : (l ++ c :: rest).dropWhile isDigit = c :: rest := by
  rw [List.dropWhile_append_of_pos hl]
  simp [List.dropWhile_cons, hc]

theorem natDigits_props (n : ℕ) :
    natDigits n ≠ [] ∧ (∀ c ∈ natDigits n, isDigit c = true) ∧ digitsVal (natDigits n) = n :=
  ⟨natDigitsAux_ne_nil n n, natDigitsAux_digits n n, natDigitsAux_val n n le_rfl⟩

theorem readExp_space (v : ℚ) (c : Char) (rest : List Char) (hc : isSpace c = true) :
    readExp v (c :: rest) = some (v, c :: rest) := by
  have h := isSpace_props hc
  simp [readExp_cons, h.2.2.1, h.2.2.2]

/-- Reading a mantissa: integer digits `ip`, then the fraction digits `frac`
behind a point when there are any, then a character `c` that is neither a
digit nor the point. -/
theorem readDouble_mant (ip frac rest : List Char) (c : Char) (hne : ip ≠ [])
    (hip : ∀ x ∈ ip, isDigit x = true) (hfrac : ∀ x ∈ frac, isDigit x = true)
    (hc : isDigit c = false) (hc' : c ≠ '.') :
    readDouble (ip ++ ((if frac = [] then [] else '.' :: frac) ++ c :: rest)) =
      readExp ((digitsVal ip : ℚ) + (digitsVal frac : ℚ) / (10 : ℚ) ^ frac.length) (c :: rest) := by
  have e1 : ∀ tail : List Char, skipWs (ip ++ tail) = ip ++ tail := by
    obtain ⟨x, t, rfl⟩ := List.exists_cons_of_ne_nil hne
    have hx := isDigit_props (hip x (List.mem_cons_self x t))
    intro tail
    simp [skipWs, List.dropWhile_cons, hx.1]
  have e2 : ∀ tail : List Char, readSign (ip ++ tail) = (false, ip ++ tail) := by
    obtain ⟨x, t, rfl⟩ := List.exists_cons_of_ne_nil hne
    have hx := isDigit_props (hip x (List.mem_cons_self x t))
    intro tail
    simp [readSign_cons, hx.2.1, hx.2.2.1]
  have hdot : isDigit '.' = false := by decide
  unfold readDouble
  simp only [e1, e2]
  by_cases hf : frac = []
  · subst hf
    simp only [if_true, List.nil_append]
    rw [takeWhile_digits _ _ _ hip hc, dropWhile_digits _ _ _ hip hc]
    simp [readFrac_cons, hc', digitsVal, hne]
  · simp only [hf, if_false, List.cons_append]
    rw [takeWhile_digits _ _ _ hip hdot, dropWhile_digits _ _ _ hip hdot]
    simp only [readFrac_cons, if_true]
    rw [takeWhile_digits _ _ _ hfrac hc, dropWhile_digits _ _ _ hfrac hc]
    simp [hf]

theorem readDouble_putScaled (m p : ℕ) (c : Char) (rest : List Char)
    (hc : isDigit c = false) (hc' : c ≠ '.') :
    readDouble (putScaled m p ++ c :: rest) = readExp ((m : ℚ) / (10 : ℚ) ^ p) (c :: rest) := by
  have hn := natDigits_props (m / 10 ^ p)
  unfold putScaled
  simp only [List.append_assoc]
  rw [readDouble_mant _ _ _ _ hn.1 hn.2.1 (strip_digits _ (padDigits_digits _ _)) hc hc',
    strip_val, hn.2.2, padDigits_val, padDigits_length]
  congr 1
  have h10 : (10 : ℚ) ^ p ≠ 0 := pow_ne_zero _ (by norm_num)
  have hm : ((m / 10 ^ p : ℕ) : ℚ) * (10 : ℚ) ^ p + ((m % 10 ^ p : ℕ) : ℚ) = (m : ℚ) := by
    have := Nat.div_add_mod m (10 ^ p)
    have h2 : (((10 ^ p * (m / 10 ^ p) + m % 10 ^ p : ℕ)) : ℚ) = (m : ℚ) := by rw [this]
    push_cast at h2
    linarith
  field_simp
  linarith

theorem digitsVal_zero_cons (l : List Char) : digitsVal ('0' :: l) = digitsVal l := by
  have : digitVal '0' = 0 := by decide
  simp [digitsVal, this]

theorem readExp_sci (v : ℚ) (X : ℤ) (c : Char) (rest : List Char) (hc : isSpace c = true) :
    readExp v ('e' :: (if X < 0 then '-' else '+') ::
        (((if X.natAbs < 10 then ['0'] else []) ++ natDigits X.natAbs) ++ c :: rest)) =
      some (v * (10 : ℚ) ^ X, c :: rest) := by
  have hn := natDigits_props X.natAbs
  have hcd := (isSpace_props hc).1
  have hz : isDigit '0' = true := by decide
  have hd : ∀ x ∈ (if X.natAbs < 10 then ['0'] else []) ++ natDigits X.natAbs,
      isDigit x = true := by
    intro x hx
    rcases List.mem_append.mp hx with h | h
    · split at h
      · simp only [List.mem_singleton] at h
        rw [h]; exact hz
      · simp at h
    · exact hn.2.1 x h
  have hne : (if X.natAbs < 10 then ['0'] else []) ++ natDigits X.natAbs ≠ [] := by
    simp [hn.1]
  have hv : digitsVal ((if X.natAbs < 10 then ['0'] else []) ++ natDigits X.natAbs) =
      X.natAbs := by
    split
    · rw [List.singleton_append, digitsVal_zero_cons, hn.2.2]
    · rw [List.nil_append, hn.2.2]
  rw [readExp_cons]
  simp only [true_or, if_true]
  by_cases hX : X < 0
  · simp only [hX, if_true, readSign_cons]
    rw [takeWhile_digits _ _ _ hd hcd, dropWhile_digits _ _ _ hd hcd, hv]
    simp only [hne, if_false]
    have : -((X.natAbs : ℕ) : ℤ) = X := by omega
    rw [this]
  · have h1 : ('+' : Char) ≠ '-' := by decide
    simp only [hX, if_false, readSign_cons, h1, if_true]
    rw [takeWhile_digits _ _ _ hd hcd, dropWhile_digits _ _ _ hd hcd, hv]
    simp only [hne, if_false]
    have : ((X.natAbs : ℕ) : ℤ) = X := by omega
    rw [this]
    simp

/-- Reading back the text of a positive number gives its six-digit value and
stops in front of the following whitespace. -/
theorem readDouble_putPos (n d : ℕ) (c : Char) (rest : List Char) (hc : isSpace c = true) :
    readDouble (putPos n d ++ c :: rest) =
      some (((sixDigits n d).1 : ℚ) * (10 : ℚ) ^ ((sixDigits n d).2 - 5), c :: rest) := by
  unfold putPos
  generalize sixDigits n d = mX
  obtain ⟨m, X⟩ := mX
  have h10 : (10 : ℚ) ≠ 0 := by norm_num
  simp only
  split
  · have he : isDigit 'e' = false := by decide
    have he' : ('e' : Char) ≠ '.' := by decide
    simp only [List.append_assoc, List.cons_append]
    rw [readDouble_putScaled _ _ _ _ he he']
    have := readExp_sci ((m : ℚ) / (10 : ℚ) ^ 5) X c rest hc
    simp only [List.append_assoc] at this
    rw [this, zpow_sub₀ h10]
    congr 2
    rw [zpow_ofNat]
    ring
  · rename_i hX
    have hc2 := isSpace_props hc
    rw [readDouble_putScaled _ _ _ _ hc2.1 hc2.2.1, readExp_space _ _ _ hc]
    congr 2
    have hp : X - 5 = -(((5 - X).toNat : ℕ) : ℤ) := by omega
    rw [hp, zpow_neg, zpow_natCast, div_eq_mul_inv]

theorem le_roundDiv (N D z : ℕ) (hD : 0 < D) (h : z * D ≤ N) : z ≤ roundDiv N D := by
  have hq : z ≤ N / D := (Nat.le_div_iff_mul_le hD).mpr h
  unfold roundDiv
  split
  · exact hq
  · split
    · omega
    · split <;> omega

theorem roundDiv_le (N D z : ℕ) (hD : 0 < D) (h : N ≤ z * D) : roundDiv N D ≤ z := by
  have hq : N / D ≤ z := Nat.div_le_of_le_mul (by rw [mul_comm]; exact h)
  have hmod := Nat.div_add_mod N D
  have hr : 0 < N % D → N / D < z := by
    intro hpos
    rw [Nat.div_lt_iff_lt_mul hD]
    rcases Nat.lt_or_ge N (z * D) with h1 | h1
    · exact h1
    · have : N = z * D := le_antisymm h h1
      rw [this, Nat.mul_mod_left] at hpos
      exact absurd hpos (lt_irrefl 0)
  unfold roundDiv
  split
  · exact hq
  · split
    · have := hr (by omega)
      omega
    · split
      · exact hq
      · have := hr (by omega)
        omega

theorem roundDiv_err (N D : ℕ) (hD : 0 < D) :
    2 * (roundDiv N D * D) ≤ 2 * N + D ∧ 2 * N ≤ 2 * (roundDiv N D * D) + D := by
  have hmod := Nat.div_add_mod N D
  have hlt := Nat.mod_lt N hD
  have e : (N / D + 1) * D = D * (N / D) + D := by ring
  have e' : N / D * D = D * (N / D) := by ring
  unfold roundDiv
  split
  · rw [e']; omega
  · split
    · rw [e]; omega
    · split
      · rw [e']; omega
      · rw [e]; omega

theorem ceil_bounds (n d : ℕ) (hn : 0 < n) :
    d ≤ n * ((d + n - 1) / n) ∧ n * ((d + n - 1) / n) ≤ d + n - 1 := by
  have hmod := Nat.div_add_mod (d + n - 1) n
  have hlt := Nat.mod_lt (d + n - 1) hn
  constructor <;> omega

theorem scale_bounds (n d : ℕ) (hn : 0 < n) (hd : 0 < d) (h24 : n ≤ 24 * d) :
    decExp n d ≤ 1 ∧ 10 ^ 5 * d ≤ n * 10 ^ (5 - decExp n d).toNat ∧
      n * 10 ^ (5 - decExp n d).toNat < 10 ^ 6 * d := by
  unfold decExp
  split
  · rename_i hle
    have h1 : n / d ≠ 0 := (Nat.div_pos hle hd).ne'
    have h2 : n / d < 10 ^ 2 := by
      have : n / d ≤ 24 := Nat.div_le_of_le_mul (by omega)
      omega
    have hL : Nat.log 10 (n / d) < 2 := Nat.log_lt_of_lt_pow h1 h2
    have lo := (Nat.le_div_iff_mul_le hd).mp (Nat.pow_log_le_self 10 h1)
    have hi := (Nat.div_lt_iff_lt_mul hd).mp (Nat.lt_pow_succ_log_self (by norm_num : 1 < 10) (n / d))
    generalize Nat.log 10 (n / d) = L at hL lo hi
    interval_cases L
    · have e : (5 - ((0 : ℕ) : ℤ)).toNat = 5 := by decide
      rw [e]
      norm_num at lo hi ⊢
      omega
    · have e : (5 - ((1 : ℕ) : ℤ)).toNat = 4 := by decide
      rw [e]
      norm_num at lo hi ⊢
      omega
  · rename_i hlt
    have hlt' : n < d := Nat.lt_of_not_le hlt
    have hc := ceil_bounds n d hn
    have hc1 : 1 < (d + n - 1) / n := by
      by_contra hcon
      have : (d + n - 1) / n ≤ 1 := Nat.le_of_not_lt hcon
      have := Nat.mul_le_mul_left n this
      omega
    have hup := Nat.le_pow_clog (by norm_num : 1 < 10) ((d + n - 1) / n)
    have hlo := Nat.pow_pred_clog_lt_self (by norm_num : 1 < 10) hc1
    have hk : 0 < Nat.clog 10 ((d + n - 1) / n) := Nat.clog_pos (by norm_num) (by omega)
    generalize Nat.clog 10 ((d + n - 1) / n) = k at hup hlo hk
    generalize (d + n - 1) / n = c at hc hc1 hup hlo
    obtain ⟨j, rfl⟩ : ∃ j, k = j + 1 := ⟨k - 1, by omega⟩
    simp only [Nat.pred_succ] at hlo
    have e : (5 - -((j + 1 : ℕ) : ℤ)).toNat = j + 6 := by omega
    rw [e]
    refine ⟨by omega, ?_, ?_⟩
    · have h3 : d ≤ n * 10 ^ (j + 1) := le_trans hc.1 (Nat.mul_le_mul_left n hup)
      calc 10 ^ 5 * d ≤ 10 ^ 5 * (n * 10 ^ (j + 1)) := Nat.mul_le_mul_left _ h3
        _ = n * 10 ^ (j + 6) := by ring
    · have h3 : n * (10 ^ j + 1) ≤ n * c := Nat.mul_le_mul_left n hlo
      have h4 : n * 10 ^ j < d := by
        have : n * (10 ^ j + 1) = n * 10 ^ j + n := by ring
        omega
      calc n * 10 ^ (j + 6) = 10 ^ 6 * (n * 10 ^ j) := by ring
        _ < 10 ^ 6 * d := Nat.mul_lt_mul_of_pos_left h4 (by norm_num)

theorem sixDigits_val (n d : ℕ) (hX : decExp n d ≤ 5) :
    ((sixDigits n d).1 : ℚ) * (10 : ℚ) ^ ((sixDigits n d).2 - 5) =
      (roundDiv (n * 10 ^ (5 - decExp n d).toNat) d : ℚ) / (10 : ℚ) ^ (5 - decExp n d).toNat := by
  have h10 : (10 : ℚ) ≠ 0 := by norm_num
  have hp : decExp n d - 5 = -(((5 - decExp n d).toNat : ℕ) : ℤ) := by omega
  unfold sixDigits
  simp only [hX, if_true]
  split
  · rename_i hm
    rw [hm]
    simp only
    have : decExp n d + 1 - 5 = (decExp n d - 5) + 1 := by ring
    rw [this, zpow_add_one₀ h10, hp, zpow_neg, zpow_natCast]
    push_cast
    ring
  · simp only
    rw [hp, zpow_neg, zpow_natCast, div_eq_mul_inv]

/-- For hours in `(0, 24]` the six-digit text value stays in `(0, 24]` and is
within a relative error of `5 * 10⁻⁶` of the hours. -/
theorem textValue_props (h : ℚ) (h0 : 0 < h) (h24 : h ≤ 24) :
    0 < textValue h ∧ textValue h ≤ 24 ∧ |textValue h - h| ≤ h / 200000 := by
  have hn : 0 < h.num.natAbs := Int.natAbs_pos.mpr (Rat.num_pos.mpr h0).ne'
  have hd : 0 < h.den := h.den_pos
  have hnum : ((h.num.natAbs : ℕ) : ℚ) = (h.num : ℚ) := by
    have : ((h.num.natAbs : ℕ) : ℤ) = h.num := Int.natAbs_of_nonneg (Rat.num_pos.mpr h0).le
    calc ((h.num.natAbs : ℕ) : ℚ) = (((h.num.natAbs : ℕ) : ℤ) : ℚ) := (Int.cast_natCast _).symm
      _ = (h.num : ℚ) := by rw [this]
  have hdq : (0 : ℚ) < (h.den : ℚ) := by exact_mod_cast hd
  have hh : h * (h.den : ℚ) = (h.num.natAbs : ℚ) := by
    rw [hnum]
    exact Rat.mul_den_eq_num h
  have hle : h.num.natAbs ≤ 24 * h.den := by
    have : ((h.num.natAbs : ℕ) : ℚ) ≤ ((24 * h.den : ℕ) : ℚ) := by
      push_cast
      rw [← hh]
      exact mul_le_mul_of_nonneg_right h24 hdq.le
    exact_mod_cast this
  obtain ⟨hX, lo, hi⟩ := scale_bounds h.num.natAbs h.den hn hd hle
  have hval : textValue h = (roundDiv (h.num.natAbs * 10 ^ (5 - decExp h.num.natAbs h.den).toNat)
      h.den : ℚ) / (10 : ℚ) ^ (5 - decExp h.num.natAbs h.den).toNat := by
    unfold textValue
    simp only [h0.ne', if_false, not_lt.mpr h0.le, one_mul]
    exact sixDigits_val _ _ (by omega)
  generalize (5 - decExp h.num.natAbs h.den).toNat = e at lo hi hval
  generalize h.num.natAbs = n at hh lo hi hval hle
  have hE : (0 : ℚ) < (10 : ℚ) ^ e := by positivity
  have b1 := le_roundDiv (n * 10 ^ e) h.den (10 ^ 5) hd lo
  have b2 := roundDiv_le (n * 10 ^ e) h.den (24 * 10 ^ e) hd (by
    calc n * 10 ^ e ≤ 24 * h.den * 10 ^ e := Nat.mul_le_mul_right _ hle
      _ = 24 * 10 ^ e * h.den := by ring)
  have b3 := roundDiv_err (n * 10 ^ e) h.den hd
  generalize roundDiv (n * 10 ^ e) h.den = m at hval b1 b2 b3
  have c1 : (10 : ℚ) ^ 5 ≤ (m : ℚ) := by exact_mod_cast b1
  have c2 : (m : ℚ) ≤ 24 * (10 : ℚ) ^ e := by exact_mod_cast b2
  have c3 : 2 * ((m : ℚ) * (h.den : ℚ)) ≤ 2 * ((n : ℚ) * (10 : ℚ) ^ e) + (h.den : ℚ) := by
    exact_mod_cast b3.1
  have c4 : 2 * ((n : ℚ) * (10 : ℚ) ^ e) ≤ 2 * ((m : ℚ) * (h.den : ℚ)) + (h.den : ℚ) := by
    exact_mod_cast b3.2
  have c5 : (10 : ℚ) ^ 5 * (h.den : ℚ) ≤ (n : ℚ) * (10 : ℚ) ^ e := by exact_mod_cast lo
  rw [hval]
  refine ⟨?_, ?_, ?_⟩
  · apply div_pos _ hE
    linarith [show (0 : ℚ) < (10 : ℚ) ^ 5 by norm_num]
  · rw [div_le_iff₀ hE]
    exact c2
  · have hpos : (0 : ℚ) < (10 : ℚ) ^ e * (h.den : ℚ) := mul_pos hE hdq
    have k1 : ((m : ℚ) / (10 : ℚ) ^ e - h) * ((10 : ℚ) ^ e * (h.den : ℚ)) =
        (m : ℚ) * (h.den : ℚ) - (n : ℚ) * (10 : ℚ) ^ e := by
      have hmE : (m : ℚ) / (10 : ℚ) ^ e * (10 : ℚ) ^ e = (m : ℚ) := div_mul_cancel₀ _ hE.ne'
      calc ((m : ℚ) / (10 : ℚ) ^ e - h) * ((10 : ℚ) ^ e * (h.den : ℚ))
          = ((m : ℚ) / (10 : ℚ) ^ e * (10 : ℚ) ^ e) * (h.den : ℚ) -
              (h * (h.den : ℚ)) * (10 : ℚ) ^ e := by ring
        _ = (m : ℚ) * (h.den : ℚ) - (n : ℚ) * (10 : ℚ) ^ e := by rw [hmE, hh]
    have k2 : (h / 200000) * ((10 : ℚ) ^ e * (h.den : ℚ)) = (n : ℚ) * (10 : ℚ) ^ e / 200000 := by
      rw [← hh]
      ring
    rw [abs_le]
    constructor
    · apply le_of_mul_le_mul_right _ hpos
      rw [k1, neg_mul, k2]
      norm_num at c5
      linarith
    · apply le_of_mul_le_mul_right _ hpos
      rw [k1, k2]
      norm_num at c5
      linarith

theorem skipWs_space (c : Char) (t : List Char) (hc : isSpace c = true) :
    skipWs (c :: t) = skipWs t := by
  simp [skipWs, List.dropWhile_cons, hc]

theorem readString_skip (c : Char) (t : List Char) (hc : isSpace c = true) :
    readString (c :: t) = readString t := by
  simp only [readString, skipWs_space c t hc]

theorem readDouble_skip (c : Char) (t : List Char) (hc : isSpace c = true) :
    readDouble (c :: t) = readDouble t := by
  simp only [readDouble, skipWs_space c t hc]

theorem readRecord_skip (c : Char) (t : List Char) (hc : isSpace c = true) :
    readRecord (c :: t) = readRecord t := by
  simp only [readRecord, readString_skip c t hc]

theorem readString_token (tok rest : List Char) (c : Char) (hne : tok ≠ [])
    (hns : ∀ x ∈ tok, isSpace x = false) (hc : isSpace c = true) :
    readString (tok ++ c :: rest) = some (String.mk tok, c :: rest) := by
  have e1 : skipWs (tok ++ c :: rest) = tok ++ c :: rest := by
    obtain ⟨x, t, rfl⟩ := List.exists_cons_of_ne_nil hne
    simp [skipWs, List.dropWhile_cons, hns x (List.mem_cons_self x t)]
  have hp : ∀ x ∈ tok, (fun c => !isSpace c) x = true := by
    intro x hx
    simp [hns x hx]
  have e2 : (tok ++ c :: rest).takeWhile (fun c => !isSpace c) = tok := by
    rw [List.takeWhile_append_of_pos hp]
    simp [List.takeWhile_cons, hc]
  have e3 : (tok ++ c :: rest).dropWhile (fun c => !isSpace c) = c :: rest := by
    rw [List.dropWhile_append_of_pos hp]
    simp [List.dropWhile_cons, hc]
  simp only [readString, e1, e2, e3, hne, if_false]

theorem readDouble_putDouble (h : ℚ) (h0 : 0 < h) (c : Char) (rest : List Char)
    (hc : isSpace c = true) :
    readDouble (putDouble h ++ c :: rest) = some (textValue h, c :: rest) := by
  unfold putDouble textValue
  simp only [h0.ne', if_false, not_lt.mpr h0.le, List.nil_append, one_mul]
  exact readDouble_putPos _ _ c rest hc

theorem readRecord_line (s : WorkSession) (hs : Valid s) (rest : List Char) :
    readRecord (s.getDate.data ++ ' ' :: (s.getName.data ++ ' ' ::
        (putDouble s.getHours ++ '\n' :: rest))) =
      some ((s.getDate, s.getName, textValue s.getHours), '\n' :: rest) := by
  obtain ⟨d1, d2, n1, n2, h0, _⟩ := hs
  have hsp : isSpace ' ' = true := by decide
  have hnl : isSpace '\n' = true := by decide
  have hd : s.getDate.data ≠ [] := fun e => d1 ((data_eq_nil_iff _).mp e)
  have hn : s.getName.data ≠ [] := fun e => n1 ((data_eq_nil_iff _).mp e)
  unfold readRecord
  rw [readString_token _ _ ' ' hd d2 hsp]
  simp only
  rw [readString_skip _ _ hsp, readString_token _ _ ' ' hn n2 hsp]
  simp only
  rw [readDouble_skip _ _ hsp, readDouble_putDouble _ h0 _ _ hnl]

theorem load_congr {a b : List Char} (h : readRecord a = readRecord b) :
    (loadFromFile (some a)).1 = (loadFromFile (some b)).1 := by
  cases hb : readRecord b with
  | none => rw [load_of_none hb, load_of_none (h.trans hb)]
  | some x =>
    obtain ⟨⟨d, q, v⟩, rest⟩ := x
    rw [load_of_some hb, load_of_some (h.trans hb)]

theorem load_saveLoop (l : List WorkSession) (hl : ∀ s ∈ l, Valid s) :
    (loadFromFile (some (saveLoop l))).1 =
      l.map (fun s => (⟨textValue s.getHours, s.getName, s.getDate⟩ : WorkSession)) := by
  induction l with
  | nil => rfl
  | cons s l ih =>
    have hs := hl s (List.mem_cons_self s l)
    have hv := textValue_props s.getHours hs.2.2.2.2.1 hs.2.2.2.2.2
    have hd : s.getDate.data ≠ [] := fun e => hs.1 ((data_eq_nil_iff _).mp e)
    have hn : s.getName.data ≠ [] := fun e => hs.2.2.1 ((data_eq_nil_iff _).mp e)
    have hm : mkSession s.getDate s.getName (textValue s.getHours) =
        ⟨textValue s.getHours, s.getName, s.getDate⟩ := by
      simp [mkSession, WorkSession.setHours, WorkSession.setName, WorkSession.setDate,
        WorkSession.fresh, hd, hn, hv.1, hv.2.1]
    simp only [saveLoop]
    rw [load_of_some (readRecord_line s hs (saveLoop l)),
      load_congr (readRecord_skip '\n' (saveLoop l) (by decide)),
      ih (fun t ht => hl t (List.mem_cons_of_mem s ht)), hm]
    simp

theorem textValue_five : textValue 5 = 5 := by
  have h1 : (5 : ℚ).num = 5 := rfl
  have h2 : (5 : ℚ).den = 1 := rfl
  have h3 : Nat.log 10 5 = 0 := Nat.log_of_lt (by norm_num)
  have h4 : Int.toNat 5 = 5 := rfl
  simp only [textValue, h1, h2, sixDigits, decExp, roundDiv]
  norm_num [h3, h4]

theorem textValue_twentytwo_sevenths : textValue (22 / 7) = 314286 / 100000 := by
  have h1 : (22 / 7 : ℚ).num = 22 := by norm_num
  have h2 : (22 / 7 : ℚ).den = 7 := by norm_num
  have h3 : Nat.log 10 3 = 0 := Nat.log_of_lt (by norm_num)
  have h4 : Int.toNat 5 = 5 := rfl
  simp only [textValue, h1, h2, sixDigits, decExp, roundDiv]
  norm_num [h3, h4]

/-! ## Claims on sessions and the ledger -/

/-- C1: after any sequence of `addSession` calls on an empty ledger, the
per-project (per-date) total of a key is the sum of the hours of exactly the
added sessions with that project name (date); it is `0` when no added session
has the key, as for "Unknown" on the empty ledger. -/
theorem ledger_totals_are_sums (l : List WorkSession) (k : String) :
    (WorkLog.empty.addAll l).getTotalHoursPerProject k = projectSum l k ∧
    (WorkLog.empty.addAll l).getTotalHoursPerDate k = dateSum l k ∧
    ((∀ s ∈ l, s.getName ≠ k) → (WorkLog.empty.addAll l).getTotalHoursPerProject k = 0) ∧
    ((∀ s ∈ l, s.getDate ≠ k) → (WorkLog.empty.addAll l).getTotalHoursPerDate k = 0) ∧
    WorkLog.empty.getTotalHoursPerProject "Unknown" = 0 := by
  have hp : (WorkLog.empty.addAll l).getTotalHoursPerProject k = projectSum l k := by
    rw [WorkLog.perProject_addAll]
    simp [WorkLog.perProject_eq, WorkLog.empty, HoursMap.find]
  have hd : (WorkLog.empty.addAll l).getTotalHoursPerDate k = dateSum l k := by
    rw [WorkLog.perDate_addAll]
    simp [WorkLog.perDate_eq, WorkLog.empty, HoursMap.find]
  refine ⟨hp, hd, ?_, ?_, rfl⟩
  · intro h
    rw [hp]
    exact filter_sum_zero l _ (fun s hs => by simpa using h s hs)
  · intro h
    rw [hd]
    exact filter_sum_zero l _ (fun s hs => by simpa using h s hs)

/-- Witness for C1 on a two-session ledger and the key "Gamma", which no
session carries. -/
theorem ledger_totals_are_sums_witness :
    (WorkLog.empty.addAll [mkSession "2024-01-01" "Alpha" 5, mkSession "2024-01-01" "Beta" 3]
      ).getTotalHoursPerProject "Gamma" = 0 :=
  (ledger_totals_are_sums [mkSession "2024-01-01" "Alpha" 5, mkSession "2024-01-01" "Beta" 3]
    "Gamma").2.2.1 (by
      intro s hs
      simp only [List.mem_cons, List.mem_singleton, List.not_mem_nil, or_false] at hs
      rcases hs with rfl | rfl <;> decide)

/-- C2: `setHours h` followed by `getHours` gives `h` when `0 < h ≤ 24`, and
gives the value from before the call when `h ≤ 0` or `h > 24`; `24` is
accepted and `0` is rejected. -/
theorem setHours_getHours (s : WorkSession) (h : ℚ) :
    (0 < h ∧ h ≤ 24 → (s.setHours h).getHours = h) ∧
    (h ≤ 0 ∨ 24 < h → (s.setHours h).getHours = s.getHours) ∧
    (s.setHours 24).getHours = 24 ∧
    (s.setHours 0).getHours = s.getHours := by
  refine ⟨?_, ?_, ?_, ?_⟩
  · intro hh
    simp [WorkSession.setHours, WorkSession.getHours, hh.1, hh.2]
  · intro hh
    have : ¬ (h ≤ 24 ∧ h > 0) := by
      rintro ⟨h1, h2⟩
      rcases hh with hh | hh
      · exact absurd h2 (not_lt.mpr hh)
      · exact absurd h1 (not_le.mpr hh)
    simp [WorkSession.setHours, this]
  · simp [WorkSession.setHours, WorkSession.getHours]
  · simp [WorkSession.setHours]

/-- Witness for C2: `7.5` is stored, `25` leaves the hours as they were. -/
theorem setHours_getHours_witness :
    ((mkSession "2024-01-01" "Alpha" 5).setHours (15 / 2)).getHours = 15 / 2 ∧
    ((mkSession "2024-01-01" "Alpha" 5).setHours 25).getHours =
      (mkSession "2024-01-01" "Alpha" 5).getHours :=
  ⟨(setHours_getHours (mkSession "2024-01-01" "Alpha" 5) (15 / 2)).1 (by norm_num),
   (setHours_getHours (mkSession "2024-01-01" "Alpha" 5) 25).2.1 (Or.inr (by norm_num))⟩

/-- C6: after any sequence of `addSession` calls `getTotalHours` is the sum of
the hours of all added sessions, `0` for the empty ledger; after adding
(2024-01-01, Alpha, 5) and (2024-01-01, Beta, 3) the grand total is `8`, the
total of the date is `8` and the total of Alpha is `5`. -/
theorem getTotalHours_is_sum (l : List WorkSession) :
    (WorkLog.empty.addAll l).getTotalHours = (l.map WorkSession.getHours).sum ∧
    WorkLog.empty.getTotalHours = 0 ∧
    (WorkLog.empty.addAll
      [mkSession "2024-01-01" "Alpha" 5, mkSession "2024-01-01" "Beta" 3]).getTotalHours = 8 ∧
    (WorkLog.empty.addAll
      [mkSession "2024-01-01" "Alpha" 5, mkSession "2024-01-01" "Beta" 3]
      ).getTotalHoursPerDate "2024-01-01" = 8 ∧
    (WorkLog.empty.addAll
      [mkSession "2024-01-01" "Alpha" 5, mkSession "2024-01-01" "Beta" 3]
      ).getTotalHoursPerProject "Alpha" = 5 := by
  refine ⟨?_, rfl, ?_, ?_, ?_⟩
  · rw [WorkLog.getTotalHours_eq, WorkLog.sessions_addAll]
    simp [WorkLog.empty]
  · simp [WorkLog.addAll, WorkLog.addSession, WorkLog.empty, mkSession, WorkSession.fresh,
      WorkSession.setDate, WorkSession.setName, WorkSession.setHours, WorkSession.getHours,
      WorkLog.getTotalHours]
    norm_num
  · simp [WorkLog.addAll, WorkLog.addSession, WorkLog.empty, mkSession, WorkSession.fresh,
      WorkSession.setDate, WorkSession.setName, WorkSession.setHours, WorkSession.getHours,
      WorkSession.getName, WorkSession.getDate, HoursMap.addTo, HoursMap.find,
      WorkLog.getTotalHoursPerDate]
    norm_num
  · simp [WorkLog.addAll, WorkLog.addSession, WorkLog.empty, mkSession, WorkSession.fresh,
      WorkSession.setDate, WorkSession.setName, WorkSession.setHours, WorkSession.getHours,
      WorkSession.getName, WorkSession.getDate, HoursMap.addTo, HoursMap.find,
      WorkLog.getTotalHoursPerProject]
    norm_num

/-- C7: adding a session built through the setters to any ledger lowers none of
the per-project totals, per-date totals or the grand total. -/
theorem addSession_monotone (log : WorkLog) (s : WorkSession) (hs : Built s) (k : String) :
    log.getTotalHoursPerProject k ≤ (log.addSession s).getTotalHoursPerProject k ∧
    log.getTotalHoursPerDate k ≤ (log.addSession s).getTotalHoursPerDate k ∧
    log.getTotalHours ≤ (log.addSession s).getTotalHours := by
  have h0 := hs.hours_nonneg
  refine ⟨?_, ?_, ?_⟩
  · rw [WorkLog.perProject_addSession]
    split <;> simp [h0]
  · rw [WorkLog.perDate_addSession]
    split <;> simp [h0]
  · rw [WorkLog.getTotalHours_eq, WorkLog.getTotalHours_eq]
    simp [WorkLog.addSession, h0]

/-- Witness for C7: a session whose hours were rejected (still `0`) added to a
ledger that already holds one session. -/
theorem addSession_monotone_witness :
    (WorkLog.empty.addSession (mkSession "2024-01-01" "Alpha" 5)).getTotalHoursPerProject "Alpha" ≤
      ((WorkLog.empty.addSession (mkSession "2024-01-01" "Alpha" 5)).addSession
        (((WorkSession.fresh.setHours 30).setName "Alpha").setDate "2024-01-02")
        ).getTotalHoursPerProject "Alpha" :=
  (addSession_monotone (WorkLog.empty.addSession (mkSession "2024-01-01" "Alpha" 5))
    (((WorkSession.fresh.setHours 30).setName "Alpha").setDate "2024-01-02")
    (Built.setDate _ _ (Built.setName _ _ (Built.setHours _ _ Built.fresh))) "Alpha").1

/-- C8: a non-empty string given to `setName` (`setDate`) is what `getName`
(`getDate`) returns afterwards; the empty string leaves the field unchanged. -/
theorem setName_setDate_getters (s : WorkSession) (x : String) :
    (x ≠ "" → (s.setName x).getName = x ∧ (s.setDate x).getDate = x) ∧
    (x = "" → (s.setName x).getName = s.getName ∧ (s.setDate x).getDate = s.getDate) := by
  constructor
  · intro hx
    have : ¬ x.data = [] := fun h => hx ((data_eq_nil_iff x).mp h)
    simp [WorkSession.setName, WorkSession.setDate, WorkSession.getName, WorkSession.getDate, this]
  · intro hx
    subst hx
    simp [WorkSession.setName, WorkSession.setDate]

/-- Witness for C8: "Beta" replaces the name "Alpha", the empty string does
not. -/
theorem setName_setDate_getters_witness :
    (((mkSession "2024-01-01" "Alpha" 5).setName "Beta").getName = "Beta" ∧
      ((mkSession "2024-01-01" "Alpha" 5).setDate "Beta").getDate = "Beta") ∧
    (((mkSession "2024-01-01" "Alpha" 5).setName "").getName =
        (mkSession "2024-01-01" "Alpha" 5).getName ∧
      ((mkSession "2024-01-01" "Alpha" 5).setDate "").getDate =
        (mkSession "2024-01-01" "Alpha" 5).getDate) :=
  ⟨(setName_setDate_getters (mkSession "2024-01-01" "Alpha" 5) "Beta").1 (by decide),
   (setName_setDate_getters (mkSession "2024-01-01" "Alpha" 5) "").2 rfl⟩

/-! ## Claims on the store and the application loop -/

/-- C10: in every state the menu loop reaches from startup, the per-project
totals, per-date totals and grand total of the ledger are those of a fresh
ledger fed the current session vector in order; after a reload the vector is
what `loadFromFile` returns for the file and the ledger holds those sessions
only. -/
theorem app_ledger_replays_sessions (file : Option (List Char)) (cmds : List Cmd) (k : String) :
    ((App.start file).run cmds).log.getTotalHoursPerProject k =
      (WorkLog.empty.addAll ((App.start file).run cmds).sessions).getTotalHoursPerProject k ∧
    ((App.start file).run cmds).log.getTotalHoursPerDate k =
      (WorkLog.empty.addAll ((App.start file).run cmds).sessions).getTotalHoursPerDate k ∧
    ((App.start file).run cmds).log.getTotalHours =
      (WorkLog.empty.addAll ((App.start file).run cmds).sessions).getTotalHours ∧
    (((App.start file).run cmds).step Cmd.reload).sessions =
      (loadFromFile ((App.start file).run cmds).file).1 ∧
    (((App.start file).run cmds).step Cmd.reload).log.sessions =
      (loadFromFile ((App.start file).run cmds).file).1 ∧
    (((App.start file).run cmds).step Cmd.reload).log.getTotalHoursPerProject k =
      projectSum (loadFromFile ((App.start file).run cmds).file).1 k ∧
    (((App.start file).run cmds).step Cmd.reload).log.getTotalHoursPerDate k =
      dateSum (loadFromFile ((App.start file).run cmds).file).1 k ∧
    (((App.start file).run cmds).step Cmd.reload).log.getTotalHours =
      ((loadFromFile ((App.start file).run cmds).file).1.map WorkSession.getHours).sum := by
  have h := App.run_inv cmds (App.start file) rfl
  have hr : (((App.start file).run cmds).step Cmd.reload).log =
      WorkLog.empty.addAll (loadFromFile ((App.start file).run cmds).file).1 := rfl
  refine ⟨by rw [h], by rw [h], by rw [h], rfl, ?_, ?_, ?_, ?_⟩
  · rw [hr, WorkLog.sessions_addAll]
    simp [WorkLog.empty]
  · rw [hr, WorkLog.perProject_addAll]
    simp [WorkLog.perProject_eq, WorkLog.empty, HoursMap.find]
  · rw [hr, WorkLog.perDate_addAll]
    simp [WorkLog.perDate_eq, WorkLog.empty, HoursMap.find]
  · rw [hr, WorkLog.getTotalHours_eq, WorkLog.sessions_addAll]
    simp [WorkLog.empty]

/-- C9: when some session's project name contains whitespace, saving the
sessions and loading the written text gives triples that differ from the
originals, while `saveToFile` only reports "Sessions saved." and `loadFromFile`
reports nothing. -/
theorem whitespace_name_not_round_tripped (l : List WorkSession) (file : Option (List Char))
    (h : ∃ s ∈ l, ¬ noSpace s.getName) :
    (loadFromFile (saveToFile file true l).1).1.map triple ≠ l.map triple ∧
    (saveToFile file true l).2 = ["Sessions saved.\n"] ∧
    (loadFromFile (saveToFile file true l).1).2 = [] := by
  refine ⟨?_, rfl, rfl⟩
  intro heq
  obtain ⟨s, hs, hsp⟩ := h
  have hm : triple s ∈ (loadFromFile (saveToFile file true l).1).1.map triple := by
    rw [heq]
    exact List.mem_map_of_mem triple hs
  obtain ⟨s', hs', e⟩ := List.mem_map.mp hm
  have hn : s'.getName = s.getName := by
    have := congrArg (fun t => t.2.1) e
    simpa [triple] using this
  have hno : noSpace s'.getName := by
    simp only [saveToFile, if_true] at hs'
    exact load_names_noSpace _ _ le_rfl s' hs'
  rw [hn] at hno
  exact hsp hno

/-- Witness for C9: the project name "My Project". -/
theorem whitespace_name_not_round_tripped_witness :
    (loadFromFile (saveToFile none true [⟨5, "My Project", "2024-01-01"⟩]).1).1.map triple ≠
      [(⟨5, "My Project", "2024-01-01"⟩ : WorkSession)].map triple ∧
    (saveToFile none true [⟨5, "My Project", "2024-01-01"⟩]).2 = ["Sessions saved.\n"] ∧
    (loadFromFile (saveToFile none true [⟨5, "My Project", "2024-01-01"⟩]).1).2 = [] :=
  whitespace_name_not_round_tripped [⟨5, "My Project", "2024-01-01"⟩] none
    ⟨⟨5, "My Project", "2024-01-01"⟩, List.mem_singleton.mpr rfl, by decide⟩

/-- C5, the code at a file whose only record has hours outside `(0, 24]`: the
loaded session carries the project "Alpha" and the date "2024-01-01", both
totals are `0`, and the menu answers "Project not found." and "No sessions
found for that date.". -/
theorem recorded_key_reported_not_found :
    (loadFromFile (some "2024-01-01 Alpha 30\n".data)).1 = [mkSession "2024-01-01" "Alpha" 30] ∧
    Built (mkSession "2024-01-01" "Alpha" 30) ∧
    (mkSession "2024-01-01" "Alpha" 30).getName = "Alpha" ∧
    (mkSession "2024-01-01" "Alpha" 30).getDate = "2024-01-01" ∧
    (WorkLog.empty.addAll [mkSession "2024-01-01" "Alpha" 30]).getTotalHoursPerProject "Alpha" = 0 ∧
    (WorkLog.empty.addAll [mkSession "2024-01-01" "Alpha" 30]).getTotalHoursPerDate "2024-01-01" = 0 ∧
    ((App.start (some "2024-01-01 Alpha 30\n".data)).step (Cmd.hoursByProject "Alpha")).console =
      ["Project not found.\n"] ∧
    ((App.start (some "2024-01-01 Alpha 30\n".data)).step (Cmd.hoursByDate "2024-01-01")).console =
      ["No sessions found for that date.\n"] := by
  have hl : (loadFromFile (some "2024-01-01 Alpha 30\n".data)).1 =
      [mkSession "2024-01-01" "Alpha" 30] := by
    simp [loadFromFile, loadLoop, readRecord, readString, readDouble, readSign, skipWs, isSpace,
      isDigit, readFrac, readExp, digitsVal, digitVal]
  have hc : (loadFromFile (some "2024-01-01 Alpha 30\n".data)).2 = [] := rfl
  have hm : mkSession "2024-01-01" "Alpha" 30 = ⟨0, "Alpha", "2024-01-01"⟩ := by
    simp [mkSession, WorkSession.setDate, WorkSession.setName, WorkSession.setHours,
      WorkSession.fresh]
    norm_num
  have hp : (WorkLog.empty.addAll [mkSession "2024-01-01" "Alpha" 30]).getTotalHoursPerProject
      "Alpha" = 0 := by
    rw [hm]
    simp [WorkLog.addAll, WorkLog.addSession, WorkLog.empty, WorkLog.getTotalHoursPerProject,
      HoursMap.addTo, HoursMap.find, WorkSession.getName, WorkSession.getHours]
  have hd : (WorkLog.empty.addAll [mkSession "2024-01-01" "Alpha" 30]).getTotalHoursPerDate
      "2024-01-01" = 0 := by
    rw [hm]
    simp [WorkLog.addAll, WorkLog.addSession, WorkLog.empty, WorkLog.getTotalHoursPerDate,
      HoursMap.addTo, HoursMap.find, WorkSession.getDate, WorkSession.getHours]
  refine ⟨hl, ?_, ?_, ?_, hp, hd, ?_, ?_⟩
  · exact Built.setHours _ _ (Built.setName _ _ (Built.setDate _ _ Built.fresh))
  · rw [hm]; rfl
  · rw [hm]; rfl
  · simp only [App.step, App.start, hl, hc, hp]
    simp
  · simp only [App.step, App.start, hl, hc, hd]
    simp

/-- C3: saving valid sessions (non-empty, whitespace-free date and project,
hours in `(0, 24]`) and loading the written text gives as many sessions, with
the same dates and project names in the same order and with the hours the
decimal text denotes: the original hours rounded to six significant digits,
within a relative error of `5 * 10⁻⁶`. -/
theorem save_load_round_trip (l : List WorkSession) (file : Option (List Char))
    (hl : ∀ s ∈ l, Valid s) :
    (loadFromFile (saveToFile file true l).1).1.length = l.length ∧
    (loadFromFile (saveToFile file true l).1).1.map triple =
      l.map (fun s => (s.getDate, s.getName, textValue s.getHours)) ∧
    (∀ s ∈ l, |textValue s.getHours - s.getHours| ≤ s.getHours / 200000) := by
  have h := load_saveLoop l hl
  simp only [saveToFile, if_true]
  refine ⟨?_, ?_, ?_⟩
  · rw [h, List.length_map]
  · rw [h, List.map_map]
    rfl
  · intro s hs
    exact (textValue_props s.getHours (hl s hs).2.2.2.2.1 (hl s hs).2.2.2.2.2).2.2

/-- Witness for C3: two valid sessions; the hours `5` come back as `5`, the
hours `22/7` come back as `3.14286`, the value of their text. -/
theorem save_load_round_trip_witness :
    (loadFromFile (saveToFile none true
        [⟨5, "Alpha", "2024-01-01"⟩, ⟨22 / 7, "Beta", "2024-01-02"⟩]).1).1.map triple =
      [("2024-01-01", "Alpha", 5), ("2024-01-02", "Beta", 314286 / 100000)] := by
  have h := (save_load_round_trip [⟨5, "Alpha", "2024-01-01"⟩, ⟨22 / 7, "Beta", "2024-01-02"⟩]
    none (by
      intro s hs
      simp only [List.mem_cons, List.mem_singleton, List.not_mem_nil, or_false] at hs
      rcases hs with rfl | rfl
      · exact ⟨by decide, by decide, by decide, by decide, by norm_num [WorkSession.getHours],
          by norm_num [WorkSession.getHours]⟩
      · exact ⟨by decide, by decide, by decide, by decide, by norm_num [WorkSession.getHours],
          by norm_num [WorkSession.getHours]⟩)).2.1
  rw [h]
  simp only [List.map_cons, List.map_nil, WorkSession.getHours, WorkSession.getDate,
    WorkSession.getName, textValue_five, textValue_twentytwo_sevenths]

/-- C4 as stated fails: the only record of this file is read in full, with
hours `30`, and no record is malformed, yet the loaded session has hours `0`. -/
theorem load_changes_hours_outside_range :
    ReadsRecords "2024-01-01 Alpha 30\n".data [("2024-01-01", "Alpha", 30)] "\n".data ∧
    readRecord "\n".data = none ∧
    (loadFromFile (some "2024-01-01 Alpha 30\n".data)).1.map triple =
      [("2024-01-01", "Alpha", 0)] ∧
    (loadFromFile (some "2024-01-01 Alpha 30\n".data)).1.map triple ≠
      [("2024-01-01", "Alpha", 30)] := by
  have hr : readRecord "2024-01-01 Alpha 30\n".data =
      some (("2024-01-01", "Alpha", 30), "\n".data) := by
    simp [readRecord, readString, readDouble, readSign, skipWs, isSpace, isDigit, readFrac,
      readExp, digitsVal, digitVal]
  have hn : readRecord "\n".data = none := by
    simp [readRecord, readString, skipWs, isSpace]
  have hl : (loadFromFile (some "2024-01-01 Alpha 30\n".data)).1.map triple =
      [("2024-01-01", "Alpha", 0)] := by
    rw [load_of_some hr, load_of_none hn]
    simp [triple, mkSession, WorkSession.setDate, WorkSession.setName, WorkSession.setHours,
      WorkSession.fresh, WorkSession.getDate, WorkSession.getName, WorkSession.getHours]
    norm_num
  refine ⟨ReadsRecords.next _ _ _ _ _ hr (ReadsRecords.done _), hn, hl, ?_⟩
  rw [hl]
  simp

/-- C4, amended: reading the records of a file one after the other up to the
first extraction that fails is always possible, and when the hours of the
records read up to there lie in `(0, 24]` the loaded sessions are exactly
those records, in file order, whatever follows the failing record; a file
that starts with `2024-02-02 Gamma notanumber` loads as the empty vector. -/
theorem load_keeps_records_before_first_failure (content : List Char) :
    (∃ rs mid, ReadsRecords content rs mid ∧ readRecord mid = none) ∧
    (∀ rs mid, ReadsRecords content rs mid → readRecord mid = none →
      (∀ r ∈ rs, 0 < r.2.2 ∧ r.2.2 ≤ 24) →
      (loadFromFile (some content)).1.map triple = rs) ∧
    (∀ tail : List Char,
      (loadFromFile (some ("2024-02-02 Gamma notanumber".data ++ tail))).1 = []) := by
  refine ⟨reads_total content.length content le_rfl, ?_, ?_⟩
  · intro rs mid hrs hbad hrange
    rw [load_of_reads hrs hbad, List.map_map]
    have hf := reads_fields hrs
    calc rs.map (triple ∘ fun r => mkSession r.1 r.2.1 r.2.2) = rs.map id := by
          apply List.map_congr_left
          intro r hr
          obtain ⟨d, q, x⟩ := r
          have hm := mkSession_fields d q x (hf _ hr).1 (hf _ hr).2
          simp only [Function.comp, triple, hm.1, hm.2.1, hm.2.2.1 (hrange _ hr), id]
      _ = rs := List.map_id rs
  · intro tail
    apply load_of_none
    simp [readRecord, readString, readDouble, readSign, skipWs, isSpace, isDigit, readFrac]

/-- Witness for C4: a well-formed record, a malformed one, and a well-formed
record behind it that is not loaded. -/
theorem load_keeps_records_before_first_failure_witness :
    (loadFromFile (some
      "2024-01-01 Alpha 5\n2024-02-02 Gamma notanumber\n2024-01-02 Beta 3\n".data)).1.map triple =
      [("2024-01-01", "Alpha", 5)] :=
  (load_keeps_records_before_first_failure
    "2024-01-01 Alpha 5\n2024-02-02 Gamma notanumber\n2024-01-02 Beta 3\n".data).2.1
    [("2024-01-01", "Alpha", 5)] "\n2024-02-02 Gamma notanumber\n2024-01-02 Beta 3\n".data
    (ReadsRecords.next _ _ _ _ _ (by
      simp [readRecord, readString, readDouble, readSign, skipWs, isSpace, isDigit, readFrac,
        readExp, digitsVal, digitVal]) (ReadsRecords.done _))
    (by simp [readRecord, readString, readDouble, readSign, skipWs, isSpace, isDigit, readFrac])
    (by
      intro r hr
      simp only [List.mem_singleton] at hr
      subst hr
      norm_num)

end Chrono
